import Mathlib

/-!
Verification of the C6Logger log-compaction algorithm (`src/src/Logger.cpp`).

Strings are modelled as `List Char` (byte-for-byte contents of `std::string`).
Each definition below is a direct transcription of the corresponding C++
function; line references point into `Logger.cpp`.
-/

namespace C6Logger

/-- `pat` occurs in `s` at position `j` (the semantics of a successful
`std::string::find`/`rfind` hit at `j`). -/
def OccursAt (s pat : List Char) (j : Nat) : Prop := pat <+: s.drop j

instance (s pat : List Char) (j : Nat) : Decidable (OccursAt s pat j) := by
  unfold OccursAt
  infer_instance

/-- Model of `std::string::find(pat, i)`: the least position `≥ i` where `pat`
occurs, scanning upward. -/
def findFrom (s pat : List Char) (i : Nat) : Option Nat :=
  if h : i + pat.length ≤ s.length then
    if pat.isPrefixOf (s.drop i) then some i else findFrom s pat (i + 1)
  else none
termination_by s.length + 1 - i
decreasing_by
  omega

/-- Downward scan used to model `std::string::rfind`. -/
def rfindAux (s pat : List Char) : Nat → Option Nat
  | 0 => if pat.isPrefixOf s then some 0 else none
  | j + 1 => if pat.isPrefixOf (s.drop (j + 1)) then some (j + 1) else rfindAux s pat j

/-- Model of `std::string::rfind(pat)`: the greatest position where `pat`
occurs (occurrences must fit inside `s`). -/
def rfindSub (s pat : List Char) : Option Nat :=
  if pat.length ≤ s.length then rfindAux s pat (s.length - pat.length) else none

/-- The `"] ["` boundary searched for by `ExtractKey`. -/
def boundary : List Char := [']', ' ', '[']

/-- `ExtractKey` (Logger.cpp:115-128): strips timestamp (and messenger when
present) from a rendered line, falling back to the whole line. -/
def extractKey (line : List Char) : List Char :=
  match findFrom line boundary 0 with
  | none => line
  | some first =>
    match findFrom line boundary (first + 1) with
    | none => line.drop (first + 2)
    | some second =>
      -- C++: `if (second + 2 >= line.size()) return line;`
      if line.length ≤ second + 2 then line else line.drop (second + 2)

/-- The literal `" (repeated "` from `TryParseRepeatSuffix`. -/
def repPre : List Char := [' ', '(', 'r', 'e', 'p', 'e', 'a', 't', 'e', 'd', ' ']

/-- The literal `" times)"` from `TryParseRepeatSuffix`. -/
def repSuf : List Char := [' ', 't', 'i', 'm', 'e', 's', ')']

/-- The digit-accumulation loop of `TryParseRepeatSuffix` (Logger.cpp:144-148):
fails on the first non-digit, otherwise folds `value = value*10 + (c - '0')`. -/
def digitsVal : List Char → Nat → Option Nat
  | [], v => some v
  | c :: cs, v => if c.isDigit then digitsVal cs (v * 10 + (c.toNat - 48)) else none

/-- `TryParseRepeatSuffix` (Logger.cpp:130-153). Returns
`some (count, suffixStartPos)` on success. -/
def tryParseRepeatSuffix (s : List Char) : Option (Nat × Nat) :=
  if s.length < repPre.length + repSuf.length + 1 then none
  else
    match rfindSub s repPre with
    | none => none
    | some pos =>
      match rfindSub s repSuf with
      | none => none
      | some e =>
        if e + repSuf.length ≠ s.length then none
        else if e ≤ pos + repPre.length then none
        else
          match digitsVal ((s.drop (pos + repPre.length)).take (e - (pos + repPre.length))) 0 with
          | none => none
          | some v => if v = 0 then none else some (v, pos)

/-- `StripRepeatSuffix` (Logger.cpp:155-161). -/
def stripRepeatSuffix (s : List Char) : List Char :=
  match tryParseRepeatSuffix s with
  | some (_, p) => s.take p
  | none => s

/-- `IsTimestampStart` (Logger.cpp:163-173): `'['` followed by four digits and
`'-'`; the C++ additionally rejects when `i + 6 >= s.size()`. -/
def isTimestampStart (s : List Char) (i : Nat) : Bool :=
  if s.length ≤ i then false
  else if s.getD i ' ' ≠ '[' then false
  else if s.length ≤ i + 6 then false
  else
    (s.getD (i + 1) ' ').isDigit && (s.getD (i + 2) ' ').isDigit &&
    (s.getD (i + 3) ' ').isDigit && (s.getD (i + 4) ' ').isDigit &&
    s.getD (i + 5) ' ' = '-'

/-- The scanning loop of `SplitConcatenatedLines` (Logger.cpp:178-190);
`(raw.drop start).take (i - start)` is `raw.substr(start, i - start)`. -/
def splitLoop (raw : List Char) (i start : Nat) (acc : List (List Char)) : List (List Char) :=
  if _h : i < raw.length then
    if isTimestampStart raw i then
      splitLoop raw (i + 1) i (if start < i then acc ++ [(raw.drop start).take (i - start)] else acc)
    else splitLoop raw (i + 1) start acc
  else if start < raw.length then acc ++ [raw.drop start] else acc
termination_by raw.length - i

/-- `SplitConcatenatedLines` (Logger.cpp:175-191): scan from position 1. -/
def splitConcatenatedLines (raw : List Char) : List (List Char) :=
  splitLoop raw 1 0 []

/-- Multiplicity of a logical line (Logger.cpp:218-227): parsed repeat count,
defaulting to 1. -/
def lineMult (l : List Char) : Nat :=
  match tryParseRepeatSuffix l with
  | some (c, _) => c
  | none => 1

/-- The dedup key of a logical line (Logger.cpp:229-230): key of the
suffix-stripped base. -/
def lineKey (l : List Char) : List Char := extractKey (stripRepeatSuffix l)

/-- `Record` (Logger.cpp:211). -/
structure Record where
  baseLine : List Char
  count : Nat
  lastIndex : Nat
deriving DecidableEq, Repr

/-- One iteration of the accumulation loop of `CompressAndTrimLogFile`
(Logger.cpp:216-243), for the logical line `l` at chronological index `i`.
The C++ keeps a hash index `indexByKey` into the vector `records`; since each
key is inserted at most once, locating the record by key membership and
updating the (unique) entry with that key is the same operation. -/
def stepRecs (recs : List (List Char × Record)) (l : List Char) (i : Nat) :
    List (List Char × Record) :=
  let cnt := lineMult l
  let base := stripRepeatSuffix l
  let key := extractKey base
  if key ∈ recs.map Prod.fst then
    recs.map (fun kr =>
      if kr.1 = key then (kr.1, Record.mk base (kr.2.count + cnt) i) else kr)
  else recs ++ [(key, Record.mk base cnt i)]

/-- The accumulation loop of `CompressAndTrimLogFile` (Logger.cpp:216-243). -/
def processLinesAux : List (List Char) → Nat → List (List Char × Record) → List (List Char × Record)
  | [], _, recs => recs
  | l :: rest, i, recs => processLinesAux rest (i + 1) (stepRecs recs l i)

def processLines (lines : List (List Char)) : List (List Char × Record) :=
  processLinesAux lines 0 []

/-- The comparator of the `std::stable_sort` call (Logger.cpp:246-248): the
stable sort by strict `lastIndex <` equals the stable merge sort by
`lastIndex ≤`. -/
def recLE (a b : List Char × Record) : Bool :=
  decide (a.2.lastIndex ≤ b.2.lastIndex)

def sortRecords (recs : List (List Char × Record)) : List (List Char × Record) :=
  recs.mergeSort recLE

/-- The trimming step (Logger.cpp:249-251): drop the first `size - maxLines`
records when `size > maxLines`. -/
def trimRecords (recs : List (List Char × Record)) (maxLines : Nat) : List (List Char × Record) :=
  if maxLines < recs.length then recs.drop (recs.length - maxLines) else recs

/-- The in-memory compaction pipeline of `CompressAndTrimLogFile` applied to
the ordered list of logical lines. -/
def compact (lines : List (List Char)) (maxLines : Nat) : List (List Char × Record) :=
  trimRecords (sortRecords (processLines lines)) maxLines

/-- Decimal digits of `n`, as printed by `operator<<(std::ostream, size_t)`. -/
def natDigits (n : Nat) : List Char :=
  if _h : n < 10 then [Char.ofNat (48 + n)]
  else natDigits (n / 10) ++ [Char.ofNat (48 + n % 10)]
decreasing_by
  exact Nat.div_lt_self (by omega) (by omega)

/-- The serialization step (Logger.cpp:255-263): append
`" (repeated N times)"` when `count > 1`. -/
def serializeRecord (base : List Char) (count : Nat) : List Char :=
  if 1 < count then base ++ repPre ++ natDigits count ++ repSuf else base

/-- `std::getline` over the whole file contents: lines are separated by
`'\n'` (which is consumed), a trailing fragment without a final newline is
still a line, and an empty file yields no lines. -/
def splitNl : List Char → List (List Char)
  | [] => []
  | c :: cs =>
    if c = '\n' then [] :: splitNl cs
    else
      match splitNl cs with
      | [] => [[c]]
      | l :: ls => (c :: l) :: ls

/-- The read loop of `CompressAndTrimLogFile` (Logger.cpp:196-206): skip empty
physical lines, split concatenated entries, keep non-empty parts. -/
def logicalLines (c : List Char) : List (List Char) :=
  ((splitNl c).filter (fun l => !l.isEmpty)).flatMap
    (fun l => (splitConcatenatedLines l).filter (fun p => !p.isEmpty))

/-- The write loop (Logger.cpp:253-264): each record's serialization followed
by `'\n'`. -/
def renderRecords (recs : List (List Char × Record)) : List Char :=
  (recs.map (fun kr => serializeRecord kr.2.baseLine kr.2.count ++ ['\n'])).flatten

/-- `CompressAndTrimLogFile` (Logger.cpp:193-265) at the level of file
contents. `none` as input models an unreadable file (`!in.is_open()`), `none`
as output means the function returned without rewriting the file. -/
def compressAndTrim (content : Option (List Char)) (maxLines : Nat) : Option (List Char) :=
  match content with
  | none => none
  | some c =>
    let lines := logicalLines c
    if lines.isEmpty then none
    else some (renderRecords (compact lines maxLines))

/-- Resulting file contents after one compaction run on a readable file. -/
def runCompact (c : List Char) (maxLines : Nat) : List Char :=
  (compressAndTrim (some c) maxLines).getD c

/-- `LogLevel` (Logger.h:12-19). -/
inductive LogLevel where
  | trace | debug | info | warning | error | critical
deriving DecidableEq, Repr

/-- `levelStr` (Logger.cpp:293). -/
def levelStr : LogLevel → List Char
  | .trace => ['T', 'R', 'A', 'C', 'E']
  | .debug => ['D', 'E', 'B', 'U', 'G']
  | .info => ['I', 'N', 'F', 'O']
  | .warning => ['W', 'A', 'R', 'N', 'I', 'N', 'G']
  | .error => ['E', 'R', 'R', 'O', 'R']
  | .critical => ['C', 'R', 'I', 'T', 'I', 'C', 'A', 'L']

/-- The `baseLine` construction in `Log` (Logger.cpp:298-305): an empty
messenger selects the two-field format. -/
def renderLine (ts msgr : List Char) (lvl : LogLevel) (msg : List Char) : List Char :=
  if msgr.isEmpty then
    '[' :: ts ++ ']' :: ' ' :: '[' :: levelStr lvl ++ ']' :: ' ' :: msg
  else
    '[' :: ts ++ ']' :: ' ' :: '[' :: msgr ++ ']' :: ' ' :: '[' :: levelStr lvl ++ ']' :: ' ' :: msg

/-! ### Basic facts about occurrences and the find/rfind scans -/

theorem occursAt_nil (s : List Char) (k : Nat) : OccursAt s [] k :=
  List.nil_prefix

theorem occursAt_cons {s : List Char} {a : Char} {p : List Char} {k : Nat} :
    OccursAt s (a :: p) k ↔ s[k]? = some a ∧ OccursAt s p (k + 1) := by
  unfold OccursAt
  by_cases h : k < s.length
  · rw [List.drop_eq_getElem_cons h, List.cons_prefix_cons, List.getElem?_eq_getElem h]
    simp [eq_comm]
  · have hle : s.length ≤ k := le_of_not_lt h
    simp [List.drop_eq_nil_of_le hle, List.getElem?_eq_none hle]

theorem occursAt_boundary {s : List Char} {k : Nat} :
    OccursAt s boundary k ↔
      s[k]? = some ']' ∧ s[k + 1]? = some ' ' ∧ s[k + 2]? = some '[' := by
  show OccursAt s (']' :: ' ' :: '[' :: []) k ↔ _
  rw [occursAt_cons, occursAt_cons, occursAt_cons]
  simp [occursAt_nil]

theorem OccursAt.bound {s pat : List Char} {k : Nat} (hp : pat ≠ []) (h : OccursAt s pat k) :
    k + pat.length ≤ s.length := by
  have h1 := h.length_le
  rw [List.length_drop] at h1
  have h2 : 0 < pat.length := List.length_pos.mpr hp
  omega

theorem occursAt_shift {s pat : List Char} {i j : Nat} :
    OccursAt (s.drop i) pat j ↔ OccursAt s pat (i + j) := by
  unfold OccursAt
  rw [List.drop_drop]

theorem occursAt_of_prefix {s pat : List Char} (h : pat <+: s) : OccursAt s pat 0 := by
  simpa [OccursAt]

theorem findFrom_some {s pat : List Char} :
    ∀ {i j : Nat}, findFrom s pat i = some j →
      i ≤ j ∧ OccursAt s pat j ∧ ∀ k, i ≤ k → k < j → ¬ OccursAt s pat k := by
  intro i
  induction i using findFrom.induct s pat with
  | case1 i hle hpre =>
    intro j hj
    rw [findFrom, dif_pos hle, if_pos hpre] at hj
    cases hj
    refine ⟨le_refl _, ?_, ?_⟩
    · exact List.isPrefixOf_iff_prefix.mp hpre
    · intro k hk1 hk2; omega
  | case2 i hle hpre ih =>
    intro j hj
    rw [findFrom, dif_pos hle, if_neg hpre] at hj
    obtain ⟨h1, h2, h3⟩ := ih hj
    refine ⟨by omega, h2, ?_⟩
    intro k hk1 hk2
    rcases Nat.eq_or_lt_of_le hk1 with heq | hlt
    · subst heq
      exact fun hc => hpre (List.isPrefixOf_iff_prefix.mpr hc)
    · exact h3 k hlt hk2
  | case3 i hle =>
    intro j hj
    rw [findFrom, dif_neg hle] at hj
    cases hj

theorem findFrom_none {s pat : List Char} (hp : pat ≠ []) :
    ∀ {i : Nat}, findFrom s pat i = none → ∀ k, i ≤ k → ¬ OccursAt s pat k := by
  intro i
  induction i using findFrom.induct s pat with
  | case1 i hle hpre =>
    intro h
    rw [findFrom, dif_pos hle, if_pos hpre] at h
    cases h
  | case2 i hle hpre ih =>
    intro h k hk hc
    rw [findFrom, dif_pos hle, if_neg hpre] at h
    rcases Nat.eq_or_lt_of_le hk with heq | hlt
    · subst heq
      exact hpre (List.isPrefixOf_iff_prefix.mpr hc)
    · exact ih h k hlt hc
  | case3 i hle =>
    intro _ k hk hc
    have := hc.bound hp
    omega

theorem findFrom_eq_some {s pat : List Char} {i j : Nat} (hp : pat ≠ [])
    (hij : i ≤ j) (hocc : OccursAt s pat j)
    (hmin : ∀ k, i ≤ k → k < j → ¬ OccursAt s pat k) : findFrom s pat i = some j := by
  cases hf : findFrom s pat i with
  | none => exact absurd hocc (findFrom_none hp hf j hij)
  | some j' =>
    obtain ⟨h1, h2, h3⟩ := findFrom_some hf
    rcases Nat.lt_trichotomy j' j with h | h | h
    · exact absurd h2 (hmin j' h1 h)
    · rw [h]
    · exact absurd hocc (h3 j hij h)

theorem findFrom_eq_none {s pat : List Char} {i : Nat}
    (h : ∀ k, i ≤ k → ¬ OccursAt s pat k) : findFrom s pat i = none := by
  cases hf : findFrom s pat i with
  | none => rfl
  | some j =>
    obtain ⟨h1, h2, _⟩ := findFrom_some hf
    exact absurd h2 (h j h1)

theorem findFrom_shift {s pat : List Char} (hp : pat ≠ []) (i : Nat) :
    findFrom s pat i = (findFrom (s.drop i) pat 0).map (fun j => i + j) := by
  cases hf : findFrom (s.drop i) pat 0 with
  | none =>
    apply findFrom_eq_none
    intro k hk hc
    have : OccursAt (s.drop i) pat (k - i) := by
      rw [occursAt_shift]
      have : i + (k - i) = k := by omega
      rw [this]
      exact hc
    exact findFrom_none hp hf (k - i) (Nat.zero_le _) this
  | some j =>
    obtain ⟨_, h2, h3⟩ := findFrom_some hf
    show findFrom s pat i = some (i + j)
    apply findFrom_eq_some hp (by omega)
    · rw [← occursAt_shift (i := i)]
      exact h2
    · intro k hk1 hk2 hc
      have hc' : OccursAt (s.drop i) pat (k - i) := by
        rw [occursAt_shift]
        have heqk : i + (k - i) = k := by omega
        rw [heqk]
        exact hc
      exact h3 (k - i) (Nat.zero_le _) (by omega) hc'

theorem rfindAux_some {s pat : List Char} :
    ∀ {j k : Nat}, rfindAux s pat j = some k →
      k ≤ j ∧ OccursAt s pat k ∧ ∀ m, k < m → m ≤ j → ¬ OccursAt s pat m := by
  intro j
  induction j with
  | zero =>
    intro k h
    rw [rfindAux] at h
    split at h
    · cases h
      refine ⟨le_refl _, occursAt_of_prefix (List.isPrefixOf_iff_prefix.mp (by assumption)), ?_⟩
      intro m h1 h2; omega
    · cases h
  | succ j ih =>
    intro k h
    rw [rfindAux] at h
    split at h
    · cases h
      refine ⟨le_refl _, List.isPrefixOf_iff_prefix.mp (by assumption), ?_⟩
      intro m h1 h2; omega
    · obtain ⟨h1, h2, h3⟩ := ih h
      refine ⟨by omega, h2, ?_⟩
      intro m hm1 hm2
      rcases Nat.eq_or_lt_of_le hm2 with heq | hlt
      · subst heq
        exact fun hc => by
          have := List.isPrefixOf_iff_prefix.mpr hc
          simp_all
      · exact h3 m hm1 (by omega)

theorem rfindAux_none {s pat : List Char} :
    ∀ {j : Nat}, rfindAux s pat j = none → ∀ m, m ≤ j → ¬ OccursAt s pat m := by
  intro j
  induction j with
  | zero =>
    intro h m hm hc
    rw [rfindAux] at h
    interval_cases m
    rw [if_pos (List.isPrefixOf_iff_prefix.mpr (by simpa [OccursAt] using hc))] at h
    cases h
  | succ j ih =>
    intro h m hm hc
    rw [rfindAux] at h
    split at h
    · cases h
    · rcases Nat.eq_or_lt_of_le hm with heq | hlt
      · subst heq
        exact absurd (List.isPrefixOf_iff_prefix.mpr hc) (by assumption)
      · exact ih h m (by omega) hc

theorem rfindSub_some {s pat : List Char} (hp : pat ≠ []) {k : Nat}
    (h : rfindSub s pat = some k) :
    OccursAt s pat k ∧ ∀ m, k < m → ¬ OccursAt s pat m := by
  rw [rfindSub] at h
  split at h
  · obtain ⟨h1, h2, h3⟩ := rfindAux_some h
    refine ⟨h2, ?_⟩
    intro m hm hc
    have hb := hc.bound hp
    exact h3 m hm (by omega) hc
  · cases h

theorem rfindSub_none {s pat : List Char} (hp : pat ≠ []) (h : rfindSub s pat = none) :
    ∀ m, ¬ OccursAt s pat m := by
  intro m hc
  rw [rfindSub] at h
  have hb := hc.bound hp
  split at h
  · exact rfindAux_none h m (by omega) hc
  · omega

theorem rfindSub_eq_some {s pat : List Char} {k : Nat} (hp : pat ≠ [])
    (hocc : OccursAt s pat k) (hmax : ∀ m, k < m → ¬ OccursAt s pat m) :
    rfindSub s pat = some k := by
  cases hf : rfindSub s pat with
  | none => exact absurd hocc (rfindSub_none hp hf k)
  | some k' =>
    obtain ⟨h1, h2⟩ := rfindSub_some hp hf
    rcases Nat.lt_trichotomy k' k with h | h | h
    · exact absurd hocc (h2 k h)
    · rw [h]
    · exact absurd h1 (hmax k' h)

/-! ### C9: the key is a suffix of the line -/

/-- C9: for every input string, the key returned by `ExtractKey` is a
contiguous trailing substring (suffix) of that input — either the whole line
or a proper suffix of it. -/
theorem extractKey_isSuffix (line : List Char) : extractKey line <:+ line := by
  unfold extractKey
  split
  · exact List.suffix_refl _
  · split
    · exact List.drop_suffix _ _
    · split
      · exact List.suffix_refl _
      · exact List.drop_suffix _ _

/-! ### C7: the timestamp-start predicate -/

/-- The timestamp-start predicate exactly as the claim words it: `s[i] = '['`,
`s[i+1] .. s[i+4]` decimal digits, `s[i+5] = '-'`, all positions existing. -/
def specTimestampStart (s : List Char) (i : Nat) : Bool :=
  decide (i + 5 < s.length) && (s.getD i ' ' = '[') &&
  (s.getD (i + 1) ' ').isDigit && (s.getD (i + 2) ' ').isDigit &&
  (s.getD (i + 3) ' ').isDigit && (s.getD (i + 4) ' ').isDigit &&
  (s.getD (i + 5) ' ' = '-')

/-- C7 counterexample: on `"[0000-"` at position 0 the claimed pattern holds
(all six positions exist), yet `IsTimestampStart` returns `false`, because the
code additionally demands a character after the `'-'` (`i + 6 < s.size()`). -/
theorem isTimestampStart_claim_false :
    specTimestampStart ['[', '0', '0', '0', '0', '-'] 0 = true ∧
    isTimestampStart ['[', '0', '0', '0', '0', '-'] 0 = false := by
  decide

/-- C7 amended: `IsTimestampStart s i` is true iff the claimed pattern holds
AND position `i + 6` also exists within the string. -/
theorem isTimestampStart_amended (s : List Char) (i : Nat) :
    isTimestampStart s i = (specTimestampStart s i && decide (i + 6 < s.length)) := by
  unfold isTimestampStart specTimestampStart
  by_cases h1 : s.length ≤ i
  · have h5 : ¬ (i + 5 < s.length) := by omega
    simp [h1, h5]
  · by_cases h2 : s.length ≤ i + 6
    · have h6 : ¬ (i + 6 < s.length) := by omega
      by_cases h3 : s.getD i ' ' = '['
      · simp [h1, h2, h3, h6]
      · simp [h1, h2, h3, h6]
    · have h5 : i + 5 < s.length := by omega
      have h6 : i + 6 < s.length := by omega
      by_cases h3 : s.getD i ' ' = '['
      · simp [h1, h2, h3, h5, h6, Bool.and_assoc]
      · simp [h1, h2, h3, h5, h6, Bool.and_assoc]

/-! ### C6: the split invariant -/

theorem splitLoop_flatten (raw : List Char) :
    ∀ i start acc, start ≤ i →
      (splitLoop raw i start acc).flatten = acc.flatten ++ raw.drop start := by
  intro i start acc
  induction i, start, acc using splitLoop.induct raw with
  | case1 i start acc h1 h2 ih =>
    intro hle
    rw [splitLoop, dif_pos h1, if_pos h2]
    by_cases hsi : start < i
    · rw [if_pos hsi]
      rw [dif_pos hsi] at ih
      rw [ih (by omega)]
      have hseg : (raw.drop start).take (i - start) ++ raw.drop i = raw.drop start := by
        conv_rhs => rw [← List.take_append_drop (i - start) (raw.drop start)]
        rw [List.drop_drop]
        congr 2
        omega
      simp only [List.flatten_append, List.flatten_cons, List.flatten_nil, List.append_nil,
        List.append_assoc]
      rw [hseg]
    · rw [if_neg hsi]
      rw [dif_neg hsi] at ih
      rw [ih (by omega)]
      have hstart : start = i := by omega
      rw [hstart]
  | case2 i start acc h1 h2 ih =>
    intro hle
    rw [splitLoop, dif_pos h1, if_neg h2]
    exact ih (by omega)
  | case3 i start acc h1 h2 =>
    intro _
    rw [splitLoop, dif_neg h1, if_pos h2]
    simp
  | case4 i start acc h1 h2 =>
    intro _
    rw [splitLoop, dif_neg h1, if_neg h2]
    rw [List.drop_eq_nil_of_le (by omega), List.append_nil]

/-- C6: concatenating, in order, all segments produced by
`SplitConcatenatedLines` reconstructs exactly the original raw line, and an
empty raw line yields an empty sequence of segments. -/
theorem splitConcatenatedLines_flatten (raw : List Char) :
    (splitConcatenatedLines raw).flatten = raw ∧
    (raw = [] → splitConcatenatedLines raw = []) := by
  constructor
  · have h := splitLoop_flatten raw 1 0 [] (by omega)
    simpa [splitConcatenatedLines] using h
  · rintro rfl
    rw [splitConcatenatedLines, splitLoop]
    simp

/-- Witness for C6 at the empty raw line. -/
theorem splitConcatenatedLines_flatten_witness : splitConcatenatedLines [] = [] :=
  (splitConcatenatedLines_flatten []).2 rfl

/-! ### C8: no-rewrite cases -/

/-- C8: compaction performs no rewrite at all (result `none`, the file left
untouched — as opposed to rewriting zero lines) when the file cannot be read
(`none` input) or when it contains no non-blank logical lines. -/
theorem compressAndTrim_noop (m : Nat) :
    compressAndTrim none m = none ∧
    ∀ c : List Char, logicalLines c = [] → compressAndTrim (some c) m = none := by
  constructor
  · rfl
  · intro c hc
    simp [compressAndTrim, hc]

/-- Witness for C8: a file consisting of two blank lines is not rewritten. -/
theorem compressAndTrim_noop_witness :
    compressAndTrim (some ['\n', '\n']) 1000 = none :=
  (compressAndTrim_noop 1000).2 ['\n', '\n'] rfl

/-! ### C4: the repeat-suffix round trip -/

theorem digitChar_isDigit {m : Nat} (hm : m < 10) : (Char.ofNat (48 + m)).isDigit = true := by
  interval_cases m <;> decide

theorem toNat_digitChar {m : Nat} (hm : m < 10) : (Char.ofNat (48 + m)).toNat = 48 + m := by
  interval_cases m <;> decide

theorem isDigit_ne {c : Char} (h : c.isDigit = true) :
    c ≠ ' ' ∧ c ≠ '(' ∧ c ≠ ']' ∧ c ≠ '[' ∧ c ≠ '-' ∧ c ≠ '\n' := by
  refine ⟨?_, ?_, ?_, ?_, ?_, ?_⟩ <;> rintro rfl <;> exact absurd h (by decide)

theorem natDigits_isDigit (n : Nat) : ∀ c ∈ natDigits n, c.isDigit = true := by
  induction n using natDigits.induct with
  | case1 n h =>
    rw [natDigits, dif_pos h]
    intro c hc
    rw [List.mem_singleton] at hc
    subst hc
    exact digitChar_isDigit h
  | case2 n h ih =>
    rw [natDigits, dif_neg h]
    intro c hc
    rcases List.mem_append.mp hc with hc | hc
    · exact ih c hc
    · rw [List.mem_singleton] at hc
      subst hc
      exact digitChar_isDigit (Nat.mod_lt _ (by omega))

theorem natDigits_ne_nil (n : Nat) : natDigits n ≠ [] := by
  induction n using natDigits.induct with
  | case1 n h => rw [natDigits, dif_pos h]; simp
  | case2 n h ih => rw [natDigits, dif_neg h]; simp

theorem digitsVal_append (xs ys : List Char) :
    ∀ v, digitsVal (xs ++ ys) v = (digitsVal xs v).bind (fun w => digitsVal ys w) := by
  induction xs with
  | nil => intro v; rfl
  | cons c cs ih =>
    intro v
    show digitsVal (c :: (cs ++ ys)) v = _
    rw [digitsVal, digitsVal]
    by_cases hc : c.isDigit
    · rw [if_pos hc, if_pos hc, ih]
    · rw [if_neg hc, if_neg hc]
      rfl

theorem digitsVal_natDigits (n : Nat) :
    ∀ v, digitsVal (natDigits n) v = some (v * 10 ^ (natDigits n).length + n) := by
  induction n using natDigits.induct with
  | case1 n h =>
    intro v
    rw [natDigits, dif_pos h]
    rw [show digitsVal [Char.ofNat (48 + n)] v =
      if (Char.ofNat (48 + n)).isDigit then
        digitsVal [] (v * 10 + ((Char.ofNat (48 + n)).toNat - 48)) else none from rfl]
    rw [if_pos (digitChar_isDigit h), toNat_digitChar h]
    show some _ = _
    congr 1
    simp
    try omega
  | case2 n h ih =>
    intro v
    rw [natDigits, dif_neg h]
    rw [digitsVal_append, ih v]
    have hm : n % 10 < 10 := Nat.mod_lt _ (by omega)
    show digitsVal [Char.ofNat (48 + n % 10)] _ = _
    rw [show ∀ w, digitsVal [Char.ofNat (48 + n % 10)] w =
      if (Char.ofNat (48 + n % 10)).isDigit then
        digitsVal [] (w * 10 + ((Char.ofNat (48 + n % 10)).toNat - 48)) else none from fun w => rfl]
    rw [if_pos (digitChar_isDigit hm), toNat_digitChar hm]
    show some _ = some _
    congr 1
    rw [List.length_append, List.length_singleton, pow_succ]
    have hdm := Nat.div_add_mod n 10
    set L := (natDigits (n / 10)).length
    ring_nf
    omega

theorem no_repPre_in_tail {D : List Char} (hD : ∀ c ∈ D, c.isDigit = true) (hne : D ≠ []) :
    ∀ t, 1 ≤ t → ¬ OccursAt (repPre ++ (D ++ repSuf)) repPre t := by
  intro t ht hocc
  have hsplit : OccursAt (repPre ++ (D ++ repSuf))
      (' ' :: '(' :: ['r', 'e', 'p', 'e', 'a', 't', 'e', 'd', ' ']) t := hocc
  rw [occursAt_cons, occursAt_cons] at hsplit
  obtain ⟨h1, h2, -⟩ := hsplit
  have hplen : repPre.length = 11 := rfl
  have hslen : repSuf.length = 7 := rfl
  rw [List.getElem?_append] at h1
  by_cases hlt : t < 11
  · rw [if_pos (by omega)] at h1
    interval_cases t <;> simp [repPre] at h1
    -- only t = 10 survives: position t + 1 = 11 is the head of D
    rw [List.getElem?_append_right (show repPre.length ≤ 10 + 1 by rw [hplen])] at h2
    cases D with
    | nil => exact hne rfl
    | cons c D' =>
      have hc : c.isDigit = true := hD c (List.mem_cons_self _ _)
      simp [hplen] at h2
      exact (isDigit_ne hc).2.1 h2
  · rw [if_neg (by omega)] at h1
    rw [List.getElem?_append, hplen] at h1
    by_cases hd : t - 11 < D.length
    · rw [if_pos hd] at h1
      have hmem : D[t - 11] ∈ D := List.getElem_mem hd
      rw [List.getElem?_eq_getElem hd] at h1
      have hc : D[t - 11].isDigit = true := hD _ hmem
      rw [Option.some_inj] at h1
      exact (isDigit_ne hc).1 h1
    · rw [if_neg hd] at h1
      by_cases hr : t - 11 - D.length < 7
      · -- in the " times)" region: the only space is its first character
        rcases Nat.lt_or_ge (t - 11 - D.length) 1 with hr0 | hr1
        · -- t is exactly the leading space of repSuf; t + 1 holds 't'
          have hteq : t = 11 + D.length := by omega
          rw [List.getElem?_append_right (show repPre.length ≤ t + 1 by rw [hplen]; omega),
              hplen] at h2
          rw [List.getElem?_append_right (show D.length ≤ t + 1 - 11 by omega)] at h2
          rw [show t + 1 - 11 - D.length = 1 by omega] at h2
          simp [repSuf] at h2
        · -- positions 1..6 of repSuf are not spaces
          have h16 : t - 11 - D.length ≤ 6 := by omega
          have hchars : ∀ r, 1 ≤ r → r ≤ 6 → repSuf[r]? ≠ some ' ' := by
            intro r hr1' hr6'
            interval_cases r <;> simp [repSuf]
          exact hchars _ hr1 h16 h1
      · rw [List.getElem?_eq_none (by rw [hslen]; omega)] at h1
        cases h1

theorem rfind_repSuf_serialize {base D : List Char} :
    rfindSub (base ++ repPre ++ D ++ repSuf) repSuf = some (base.length + repPre.length + D.length) := by
  apply rfindSub_eq_some (by simp [repSuf])
  · unfold OccursAt
    rw [show base.length + repPre.length + D.length = (base ++ repPre ++ D).length by
          simp only [List.length_append],
        List.drop_left]
  · intro m hm hocc
    have hb := hocc.bound (by simp [repSuf])
    simp only [List.length_append] at hb
    have hslen : repSuf.length = 7 := rfl
    omega

theorem rfind_repPre_serialize {base D : List Char}
    (hD : ∀ c ∈ D, c.isDigit = true) (hne : D ≠ []) :
    rfindSub (base ++ repPre ++ D ++ repSuf) repPre = some base.length := by
  apply rfindSub_eq_some (by simp [repPre])
  · unfold OccursAt
    rw [show base ++ repPre ++ D ++ repSuf = base ++ (repPre ++ (D ++ repSuf)) by
          simp only [List.append_assoc],
        List.drop_left]
    exact List.prefix_append _ _
  · intro m hm hocc
    have hshape : base ++ repPre ++ D ++ repSuf = base ++ (repPre ++ (D ++ repSuf)) := by
      simp only [List.append_assoc]
    rw [hshape] at hocc
    have hsh : OccursAt ((base ++ (repPre ++ (D ++ repSuf))).drop base.length) repPre (m - base.length) := by
      rw [occursAt_shift]
      have heq : base.length + (m - base.length) = m := by omega
      rw [heq]
      exact hocc
    rw [List.drop_left] at hsh
    exact no_repPre_in_tail hD hne (m - base.length) (by omega) hsh

/-- C4: for every base line and every `count ≥ 1`, serializing with
`count = 1` returns the base line unchanged, and for `count > 1` parsing the
serialized line recovers exactly `(count, base)`. -/
theorem serialize_roundTrip (base : List Char) (count : Nat) (h1 : 1 ≤ count) :
    (count = 1 → serializeRecord base count = base) ∧
    (1 < count →
      tryParseRepeatSuffix (serializeRecord base count) = some (count, base.length) ∧
      stripRepeatSuffix (serializeRecord base count) = base) := by
  constructor
  · intro heq
    subst heq
    rw [serializeRecord, if_neg (by omega)]
  · intro h2
    have hser : serializeRecord base count = base ++ repPre ++ natDigits count ++ repSuf := by
      rw [serializeRecord, if_pos h2]
    set D := natDigits count with hDdef
    have hD : ∀ c ∈ D, c.isDigit = true := natDigits_isDigit count
    have hne : D ≠ [] := natDigits_ne_nil count
    have hdlen : 1 ≤ D.length := List.length_pos.mpr hne
    have hplen : repPre.length = 11 := rfl
    have hslen : repSuf.length = 7 := rfl
    have hparse : tryParseRepeatSuffix (serializeRecord base count) = some (count, base.length) := by
      rw [hser]
      have hg1 : ¬ ((base ++ repPre ++ D ++ repSuf).length < repPre.length + repSuf.length + 1) := by
        simp only [List.length_append]
        omega
      have hg2 : ¬ (base.length + repPre.length + D.length + repSuf.length ≠
          (base ++ repPre ++ D ++ repSuf).length) := by
        simp only [List.length_append]
        omega
      have hg3 : ¬ (base.length + repPre.length + D.length ≤ base.length + repPre.length) := by
        omega
      have hslice : ((base ++ repPre ++ D ++ repSuf).drop (base.length + repPre.length)).take
          (base.length + repPre.length + D.length - (base.length + repPre.length)) = D := by
        rw [show base ++ repPre ++ D ++ repSuf = (base ++ repPre) ++ (D ++ repSuf) by
              simp only [List.append_assoc],
            show base.length + repPre.length = (base ++ repPre).length by
              simp only [List.length_append],
            List.drop_left]
        rw [show (base ++ repPre).length + D.length - (base ++ repPre).length = D.length by omega]
        exact List.take_left _ _
      have hdv : digitsVal (((base ++ repPre ++ D ++ repSuf).drop (base.length + repPre.length)).take
          (base.length + repPre.length + D.length - (base.length + repPre.length))) 0 = some count := by
        rw [hslice, hDdef, digitsVal_natDigits]
        congr 1
        omega
      rw [tryParseRepeatSuffix, if_neg hg1, rfind_repPre_serialize hD hne, rfind_repSuf_serialize]
      simp only [if_neg hg2, if_neg hg3, hdv]
      rw [if_neg (by omega)]
    refine ⟨hparse, ?_⟩
    rw [stripRepeatSuffix, hparse, hser]
    rw [show base ++ repPre ++ D ++ repSuf = base ++ (repPre ++ (D ++ repSuf)) by simp]
    exact List.take_left _ _

/-- Witness for C4 at `base = "A"`, `count = 2`. -/
theorem serialize_roundTrip_witness :
    tryParseRepeatSuffix (serializeRecord ['A'] 2) = some (2, 1) ∧
    stripRepeatSuffix (serializeRecord ['A'] 2) = ['A'] :=
  (serialize_roundTrip ['A'] 2 (by omega)).2 (by omega)

/-! ### The dedup-compactor invariant -/

/-- Sum of the repeat multiplicities of all logical lines in `lines` whose
dedup key is `k`. -/
def multSum (lines : List (List Char)) (k : List Char) : Nat :=
  ((lines.filter (fun l => decide (lineKey l = k))).map lineMult).sum

/-- The invariant maintained by the accumulation loop: after processing the
history `hist` (indices `0 .. hist.length - 1`), `recs` has pairwise-distinct
keys; a key is present iff some line of `hist` carries it; and each record's
`count` is the multiplicity sum for its key, its `lastIndex` points at the
last occurrence of its key, and its `baseLine` is that occurrence's
suffix-stripped text. -/
def RepOK (hist : List (List Char)) (recs : List (List Char × Record)) : Prop :=
  (recs.map Prod.fst).Nodup ∧
  (∀ k, k ∈ recs.map Prod.fst ↔ ∃ l ∈ hist, lineKey l = k) ∧
  (∀ kr ∈ recs,
    kr.2.count = multSum hist kr.1 ∧
    ∃ l, hist[kr.2.lastIndex]? = some l ∧ lineKey l = kr.1 ∧
      kr.2.baseLine = stripRepeatSuffix l ∧
      ∀ j l', kr.2.lastIndex < j → hist[j]? = some l' → lineKey l' ≠ kr.1)

theorem multSum_snoc (hist : List (List Char)) (l : List Char) (k : List Char) :
    multSum (hist ++ [l]) k = multSum hist k + (if lineKey l = k then lineMult l else 0) := by
  unfold multSum
  rw [List.filter_append, List.map_append, List.sum_append]
  congr 1
  by_cases h : lineKey l = k
  · simp [h]
  · simp [h]

theorem multSum_eq_zero {hist : List (List Char)} {k : List Char}
    (h : ∀ l ∈ hist, lineKey l ≠ k) : multSum hist k = 0 := by
  unfold multSum
  rw [List.filter_eq_nil_iff.mpr (by intro a ha; simpa using h a ha)]
  rfl

theorem snoc_getElem?_lt {α : Type} {xs : List α} {x : α} {j : Nat} (hj : j < xs.length) :
    (xs ++ [x])[j]? = xs[j]? := by
  rw [List.getElem?_append, if_pos hj]

theorem snoc_getElem?_eq {α : Type} {xs : List α} {x : α} :
    (xs ++ [x])[xs.length]? = some x := by
  rw [List.getElem?_append_right (le_refl _)]
  simp

theorem snoc_getElem?_gt {α : Type} {xs : List α} {x : α} {j : Nat} (hj : xs.length < j) :
    (xs ++ [x])[j]? = none := by
  apply List.getElem?_eq_none
  rw [List.length_append, List.length_singleton]
  omega

theorem getElem?_some_lt {α : Type} {xs : List α} {x : α} {j : Nat}
    (h : xs[j]? = some x) : j < xs.length := by
  by_contra hc
  rw [List.getElem?_eq_none (by omega)] at h
  cases h

theorem mem_of_getElem?' {α : Type} {xs : List α} {x : α} {j : Nat}
    (h : xs[j]? = some x) : x ∈ xs := by
  obtain ⟨hlt, heq⟩ := List.getElem?_eq_some.mp h
  exact heq ▸ List.getElem_mem hlt

theorem stepRecs_ok {hist : List (List Char)} {recs : List (List Char × Record)}
    (h : RepOK hist recs) (l : List Char) :
    RepOK (hist ++ [l]) (stepRecs recs l hist.length) := by
  obtain ⟨hnd, hmem, hrec⟩ := h
  have hkeydef : extractKey (stripRepeatSuffix l) = lineKey l := rfl
  rw [stepRecs]
  simp only [hkeydef]
  by_cases hin : lineKey l ∈ recs.map Prod.fst
  · rw [if_pos hin]
    have hfst : (recs.map (fun kr =>
        if kr.1 = lineKey l then (kr.1, Record.mk (stripRepeatSuffix l) (kr.2.count + lineMult l) hist.length) else kr)).map Prod.fst
        = recs.map Prod.fst := by
      rw [List.map_map]
      apply List.map_congr_left
      intro kr _
      by_cases hk : kr.1 = lineKey l
      · simp [hk]
      · simp [hk]
    refine ⟨by rw [hfst]; exact hnd, ?_, ?_⟩
    · intro k
      rw [hfst]
      constructor
      · intro hk
        obtain ⟨l0, hl0, hkl0⟩ := (hmem k).mp hk
        exact ⟨l0, List.mem_append_left _ hl0, hkl0⟩
      · rintro ⟨l0, hl0, hkl0⟩
        rcases List.mem_append.mp hl0 with hl0 | hl0
        · exact (hmem k).mpr ⟨l0, hl0, hkl0⟩
        · rw [List.mem_singleton] at hl0
          subst hl0
          rw [← hkl0]
          exact hin
    · intro kr' hkr'
      obtain ⟨kr, hkr, hfkr⟩ := List.mem_map.mp hkr'
      obtain ⟨hcnt, l0, hg0, hk0, hb0, hmax0⟩ := hrec kr hkr
      by_cases hk : kr.1 = lineKey l
      · rw [if_pos hk] at hfkr
        subst hfkr
        refine ⟨?_, l, snoc_getElem?_eq, by simpa using hk.symm, rfl, ?_⟩
        · show kr.2.count + lineMult l = _
          rw [multSum_snoc, hcnt]
          rw [if_pos (by simpa using hk.symm)]
        · intro j l' hj hg'
          rw [snoc_getElem?_gt (by simpa using hj)] at hg'
          cases hg'
      · rw [if_neg hk] at hfkr
        subst hfkr
        have hlt0 : kr.2.lastIndex < hist.length := getElem?_some_lt hg0
        refine ⟨?_, l0, by rw [snoc_getElem?_lt hlt0]; exact hg0, hk0, hb0, ?_⟩
        · rw [multSum_snoc, if_neg (fun hc => hk (by rw [← hc])), Nat.add_zero]
          exact hcnt
        · intro j l' hj hg'
          rcases Nat.lt_trichotomy j hist.length with hj2 | hj2 | hj2
          · rw [snoc_getElem?_lt hj2] at hg'
            exact hmax0 j l' hj hg'
          · subst hj2
            rw [snoc_getElem?_eq] at hg'
            cases hg'
            intro hc
            exact hk (by rw [← hc])
          · rw [snoc_getElem?_gt hj2] at hg'
            cases hg'
  · rw [if_neg hin]
    have hfst : (recs ++ [(lineKey l, Record.mk (stripRepeatSuffix l) (lineMult l) hist.length)]).map Prod.fst
        = recs.map Prod.fst ++ [lineKey l] := by
      rw [List.map_append]
      rfl
    refine ⟨?_, ?_, ?_⟩
    · rw [hfst, List.nodup_append]
      refine ⟨hnd, List.nodup_singleton _, ?_⟩
      intro a ha hb
      rw [List.mem_singleton] at hb
      subst hb
      exact hin ha
    · intro k
      rw [hfst, List.mem_append, List.mem_singleton]
      constructor
      · rintro (hk | rfl)
        · obtain ⟨l0, hl0, hkl0⟩ := (hmem k).mp hk
          exact ⟨l0, List.mem_append_left _ hl0, hkl0⟩
        · exact ⟨l, List.mem_append_right _ (List.mem_singleton_self _), rfl⟩
      · rintro ⟨l0, hl0, hkl0⟩
        rcases List.mem_append.mp hl0 with hl0 | hl0
        · exact Or.inl ((hmem k).mpr ⟨l0, hl0, hkl0⟩)
        · rw [List.mem_singleton] at hl0
          subst hl0
          exact Or.inr hkl0.symm
    · intro kr hkr
      rcases List.mem_append.mp hkr with hkr | hkr
      · obtain ⟨hcnt, l0, hg0, hk0, hb0, hmax0⟩ := hrec kr hkr
        have hknl : lineKey l ≠ kr.1 := by
          intro hc
          apply hin
          rw [hc]
          exact (hmem kr.1).mpr ⟨l0, mem_of_getElem?' hg0, hk0⟩
        have hlt0 : kr.2.lastIndex < hist.length := getElem?_some_lt hg0
        refine ⟨?_, l0, by rw [snoc_getElem?_lt hlt0]; exact hg0, hk0, hb0, ?_⟩
        · rw [multSum_snoc, if_neg hknl, Nat.add_zero]
          exact hcnt
        · intro j l' hj hg'
          rcases Nat.lt_trichotomy j hist.length with hj2 | hj2 | hj2
          · rw [snoc_getElem?_lt hj2] at hg'
            exact hmax0 j l' hj hg'
          · subst hj2
            rw [snoc_getElem?_eq] at hg'
            cases hg'
            exact hknl
          · rw [snoc_getElem?_gt hj2] at hg'
            cases hg'
      · rw [List.mem_singleton] at hkr
        subst hkr
        have hzero : multSum hist (lineKey l) = 0 := by
          apply multSum_eq_zero
          intro l0 hl0 hc
          exact hin ((hmem (lineKey l)).mpr ⟨l0, hl0, hc⟩)
        refine ⟨?_, l, snoc_getElem?_eq, rfl, rfl, ?_⟩
        · show lineMult l = _
          rw [multSum_snoc, hzero, if_pos rfl]
          omega
        · intro j l' hj hg'
          rw [snoc_getElem?_gt (by simpa using hj)] at hg'
          cases hg'

theorem processLinesAux_ok :
    ∀ (rest hist : List (List Char)) (recs : List (List Char × Record)),
      RepOK hist recs → RepOK (hist ++ rest) (processLinesAux rest hist.length recs) := by
  intro rest
  induction rest with
  | nil =>
    intro hist recs h
    rw [processLinesAux]
    simpa using h
  | cons l rest ih =>
    intro hist recs h
    rw [processLinesAux]
    have h2 := stepRecs_ok h l
    have h3 := ih (hist ++ [l]) _ h2
    rw [List.length_append, List.length_singleton] at h3
    rw [List.append_assoc, List.singleton_append] at h3
    exact h3

theorem processLines_ok (lines : List (List Char)) : RepOK lines (processLines lines) := by
  have h0 : RepOK [] [] := by
    refine ⟨List.nodup_nil, ?_, ?_⟩
    · intro k
      simp
    · intro kr hkr
      cases hkr
  have h := processLinesAux_ok lines [] [] h0
  simpa [processLines] using h

theorem repOK_lastIndex_inj {hist : List (List Char)} {recs : List (List Char × Record)}
    (h : RepOK hist recs) :
    ∀ kr ∈ recs, ∀ kr' ∈ recs, kr.2.lastIndex = kr'.2.lastIndex → kr = kr' := by
  intro kr hm kr' hm' heq
  obtain ⟨hnd, -, hrec⟩ := h
  obtain ⟨-, l1, hg1, hk1, -, -⟩ := hrec kr hm
  obtain ⟨-, l2, hg2, hk2, -, -⟩ := hrec kr' hm'
  rw [heq, hg2] at hg1
  cases hg1
  exact List.inj_on_of_nodup_map hnd hm hm' (by rw [← hk1, ← hk2])

theorem repOK_lastIndex_nodup {hist : List (List Char)} {recs : List (List Char × Record)}
    (h : RepOK hist recs) : (recs.map (fun kr => kr.2.lastIndex)).Nodup := by
  apply List.Nodup.map_on
  · intro x hx y hy hxy
    exact repOK_lastIndex_inj h x hx y hy hxy
  · exact h.1.of_map

theorem processLines_length (lines : List (List Char)) :
    (processLines lines).length = ((lines.map lineKey).toFinset).card := by
  obtain ⟨hnd, hmem, -⟩ := processLines_ok lines
  have h1 : (processLines lines).length = ((processLines lines).map Prod.fst).length := by
    rw [List.length_map]
  rw [h1, ← List.toFinset_card_of_nodup hnd]
  congr 1
  ext k
  rw [List.mem_toFinset, List.mem_toFinset, hmem k, List.mem_map]

/-! ### The sort/trim layer -/

theorem sortRecords_perm (recs : List (List Char × Record)) :
    (sortRecords recs).Perm recs :=
  List.mergeSort_perm recs recLE

theorem sortRecords_pairwise (recs : List (List Char × Record)) :
    (sortRecords recs).Pairwise (fun a b => a.2.lastIndex ≤ b.2.lastIndex) := by
  have h := @List.sorted_mergeSort _ recLE
    (fun a b c h1 h2 => by simp only [recLE, decide_eq_true_eq] at *; omega)
    (fun a b => by simp only [recLE, Bool.or_eq_true, decide_eq_true_eq]; omega) recs
  exact h.imp (fun hab => by simpa [recLE] using hab)

theorem compact_sublist (lines : List (List Char)) (m : Nat) :
    (compact lines m).Sublist (sortRecords (processLines lines)) := by
  rw [compact, trimRecords]
  split
  · exact List.drop_sublist _ _
  · exact List.Sublist.refl _

theorem mem_compact {lines : List (List Char)} {m : Nat} {kr : List Char × Record}
    (h : kr ∈ compact lines m) : kr ∈ processLines lines :=
  (sortRecords_perm _).mem_iff.mp ((compact_sublist lines m).subset h)

/-- C10: no two records emitted by a single compaction pass share a `DedupKey`
— the output's keys are pairwise distinct, because each distinct key is
inserted into the record list exactly once and later occurrences only update
the existing record. -/
theorem compact_keys_nodup (lines : List (List Char)) (m : Nat) :
    ((compact lines m).map Prod.fst).Nodup := by
  have hnd := (processLines_ok lines).1
  have hnd2 : ((sortRecords (processLines lines)).map Prod.fst).Nodup :=
    (((sortRecords_perm (processLines lines)).map Prod.fst).nodup_iff).mpr hnd
  exact (((compact_sublist lines m).map Prod.fst)).nodup hnd2

/-- C1: compaction emits exactly `min maxLines distinctKeyCount` records, in
non-decreasing `lastSeenIndex` order, and when the distinct-key count exceeds
`maxLines` the dropped records are exactly an initial segment of the sorted
record list, each with strictly smaller `lastSeenIndex` than every kept
record. -/
theorem compact_length_order (lines : List (List Char)) (m : Nat) :
    (compact lines m).length = min m ((lines.map lineKey).toFinset).card ∧
    (compact lines m).Pairwise (fun a b => a.2.lastIndex ≤ b.2.lastIndex) ∧
    (m < ((lines.map lineKey).toFinset).card →
      sortRecords (processLines lines)
        = (sortRecords (processLines lines)).take ((processLines lines).length - m)
            ++ compact lines m ∧
      ∀ a ∈ (sortRecords (processLines lines)).take ((processLines lines).length - m),
        ∀ b ∈ compact lines m, a.2.lastIndex < b.2.lastIndex) := by
  have hlen : (sortRecords (processLines lines)).length = (processLines lines).length :=
    (sortRecords_perm (processLines lines)).length_eq
  have hcard := processLines_length lines
  refine ⟨?_, ?_, ?_⟩
  · rw [compact, trimRecords]
    split
    · rw [List.length_drop]
      omega
    · omega
  · exact List.Pairwise.sublist (compact_sublist lines m) (sortRecords_pairwise _)
  · intro hm
    have hmm : m < (sortRecords (processLines lines)).length := by omega
    have hco : compact lines m
        = (sortRecords (processLines lines)).drop ((processLines lines).length - m) := by
      rw [compact, trimRecords, if_pos (by omega), hlen]
    constructor
    · rw [hco, List.take_append_drop]
    · intro a ha b hb
      have hsp := sortRecords_pairwise (processLines lines)
      have hsplit := (List.take_append_drop ((processLines lines).length - m)
        (sortRecords (processLines lines))).symm
      rw [hsplit, List.pairwise_append] at hsp
      have hle : a.2.lastIndex ≤ b.2.lastIndex := hsp.2.2 a ha b (hco ▸ hb)
      rcases Nat.eq_or_lt_of_le hle with heq | hlt
      · exfalso
        have hanodup : (sortRecords (processLines lines)).Nodup := by
          refine ((sortRecords_perm (processLines lines)).nodup_iff).mpr ?_
          exact (processLines_ok lines).1.of_map
        have hamem : a ∈ processLines lines :=
          (sortRecords_perm _).mem_iff.mp ((List.take_sublist _ _).subset ha)
        have hbmem : b ∈ processLines lines := mem_compact hb
        have hab : a = b := repOK_lastIndex_inj (processLines_ok lines) a hamem b hbmem heq
        rw [hsplit, List.nodup_append] at hanodup
        have hbd : b ∈ (sortRecords (processLines lines)).drop
            ((processLines lines).length - m) := by
          rw [← hco]
          exact hb
        rw [hab] at ha
        exact hanodup.2.2 ha hbd
      · exact hlt

/-! ### C2: count conservation -/

theorem sum_map_add {α : Type} (f g : α → Nat) (K : List α) :
    (K.map (fun k => f k + g k)).sum = (K.map f).sum + (K.map g).sum := by
  induction K with
  | nil => rfl
  | cons k K ih =>
    simp only [List.map_cons, List.sum_cons, ih]
    omega

theorem sum_ite_mem (x : List Char) (c : Nat) :
    ∀ K : List (List Char), K.Nodup →
      (K.map (fun k => if x = k then c else 0)).sum = if x ∈ K then c else 0 := by
  intro K
  induction K with
  | nil => simp
  | cons k0 K ih =>
    intro hnd
    obtain ⟨hk0, hndK⟩ := List.nodup_cons.mp hnd
    rw [List.map_cons, List.sum_cons, ih hndK]
    by_cases hx : x = k0
    · subst hx
      rw [if_pos rfl, if_neg hk0, if_pos (List.mem_cons_self _ _)]
      omega
    · rw [if_neg hx]
      by_cases hxK : x ∈ K
      · rw [if_pos hxK, if_pos (List.mem_cons_of_mem _ hxK)]
        omega
      · rw [if_neg hxK, if_neg (by simp [hx, hxK])]

theorem sum_exchange :
    ∀ (lines : List (List Char)) (K : List (List Char)), K.Nodup →
      (K.map (fun k => multSum lines k)).sum
        = ((lines.filter (fun l => decide (lineKey l ∈ K))).map lineMult).sum := by
  intro lines
  induction lines with
  | nil =>
    intro K hnd
    have hz : ∀ k : List Char, multSum [] k = 0 := fun k => rfl
    simp [hz]
  | cons l ls ih =>
    intro K hnd
    have hstep : ∀ k ∈ K, multSum (l :: ls) k
        = (if lineKey l = k then lineMult l else 0) + multSum ls k := by
      intro k _
      unfold multSum
      rw [show l :: ls = [l] ++ ls from rfl, List.filter_append, List.map_append, List.sum_append]
      congr 1
      by_cases h : lineKey l = k
      · simp [h]
      · simp [h]
    rw [List.map_congr_left hstep, sum_map_add, sum_ite_mem _ _ K hnd, ih K hnd]
    by_cases hl : lineKey l ∈ K
    · rw [if_pos hl]
      rw [show (l :: ls).filter (fun l' => decide (lineKey l' ∈ K))
            = l :: ls.filter (fun l' => decide (lineKey l' ∈ K)) by
          simp [List.filter_cons, hl]]
      rw [List.map_cons, List.sum_cons]
    · rw [if_neg hl]
      rw [show (l :: ls).filter (fun l' => decide (lineKey l' ∈ K))
            = ls.filter (fun l' => decide (lineKey l' ∈ K)) by
          simp [List.filter_cons, hl]]
      omega

/-- C2: every output record's `count` is the sum of the repeat multiplicities
of all input logical lines sharing its key; its `baseLine` is the
suffix-stripped text of the most recent occurrence of its key (its
`lastIndex`, after which the key never recurs); hence the total of `count`
over the output equals the total multiplicity of input lines whose keys are
retained. -/
theorem compact_counts (lines : List (List Char)) (m : Nat) :
    (∀ kr ∈ compact lines m,
      kr.2.count = multSum lines kr.1 ∧
      ∃ l, lines[kr.2.lastIndex]? = some l ∧ lineKey l = kr.1 ∧
        kr.2.baseLine = stripRepeatSuffix l ∧
        ∀ j l', kr.2.lastIndex < j → lines[j]? = some l' → lineKey l' ≠ kr.1) ∧
    ((compact lines m).map (fun kr => kr.2.count)).sum
      = ((lines.filter
            (fun l => decide (lineKey l ∈ (compact lines m).map Prod.fst))).map lineMult).sum := by
  have hok := processLines_ok lines
  have hpart1 : ∀ kr ∈ compact lines m,
      kr.2.count = multSum lines kr.1 ∧
      ∃ l, lines[kr.2.lastIndex]? = some l ∧ lineKey l = kr.1 ∧
        kr.2.baseLine = stripRepeatSuffix l ∧
        ∀ j l', kr.2.lastIndex < j → lines[j]? = some l' → lineKey l' ≠ kr.1 := by
    intro kr hkr
    exact hok.2.2 kr (mem_compact hkr)
  refine ⟨hpart1, ?_⟩
  have h1 : ((compact lines m).map (fun kr => kr.2.count)).sum
      = ((compact lines m).map (fun kr => multSum lines kr.1)).sum := by
    congr 1
    exact List.map_congr_left (fun kr hkr => (hpart1 kr hkr).1)
  rw [h1, show (compact lines m).map (fun kr => multSum lines kr.1)
        = ((compact lines m).map Prod.fst).map (fun k => multSum lines k) by
      rw [List.map_map]
      rfl]
  exact sum_exchange lines _ (compact_keys_nodup lines m)

unseal List.merge List.mergeSort findFrom in
/-- Witness for C1 on `["A", "B", "A"]` with `maxLines = 1`: the record for
`"B"` (the one with the smallest `lastSeenIndex`) is dropped. -/
theorem compact_length_order_witness :
    sortRecords (processLines [['A'], ['B'], ['A']])
      = (sortRecords (processLines [['A'], ['B'], ['A']])).take
          ((processLines [['A'], ['B'], ['A']]).length - 1)
        ++ compact [['A'], ['B'], ['A']] 1 ∧
    ∀ a ∈ (sortRecords (processLines [['A'], ['B'], ['A']])).take
        ((processLines [['A'], ['B'], ['A']]).length - 1),
      ∀ b ∈ compact [['A'], ['B'], ['A']] 1, a.2.lastIndex < b.2.lastIndex :=
  (compact_length_order [['A'], ['B'], ['A']] 1).2.2 (by decide)

unseal List.merge List.mergeSort findFrom in
/-- Witness for C2 on `["A", "A"]`: the single output record has count 2 and
its `lastIndex` points at the second occurrence. -/
theorem compact_counts_witness :
    (Record.mk ['A'] 2 1).count = multSum [['A'], ['A']] ['A'] ∧
    ∃ l, [['A'], ['A']][(Record.mk ['A'] 2 1).lastIndex]? = some l ∧ lineKey l = ['A'] ∧
      (Record.mk ['A'] 2 1).baseLine = stripRepeatSuffix l ∧
      ∀ j l', (Record.mk ['A'] 2 1).lastIndex < j → [['A'], ['A']][j]? = some l' →
        lineKey l' ≠ ['A'] :=
  (compact_counts [['A'], ['A']] 5).1 (['A'], Record.mk ['A'] 2 1) (by decide)

/-! ### C3: the dedup key of a rendered line -/

theorem findFrom_first_boundary (ts rest : List Char) (hts : ']' ∉ ts) :
    findFrom ('[' :: ts ++ ']' :: ' ' :: '[' :: rest) boundary 0 = some (ts.length + 1) := by
  apply findFrom_eq_some (by decide) (Nat.zero_le _)
  · unfold OccursAt
    have hdrop : ('[' :: ts ++ ']' :: ' ' :: '[' :: rest).drop (ts.length + 1)
        = ']' :: ' ' :: '[' :: rest := by
      rw [show '[' :: ts ++ ']' :: ' ' :: '[' :: rest
            = ('[' :: ts) ++ (']' :: ' ' :: '[' :: rest) from rfl,
          show ts.length + 1 = ('[' :: ts).length by rw [List.length_cons],
          List.drop_left]
    rw [hdrop]
    exact ⟨rest, rfl⟩
  · intro k _ hk hc
    rw [occursAt_boundary] at hc
    obtain ⟨h1, -, -⟩ := hc
    rcases k with _ | j
    · simp at h1
    · have hj : j < ts.length := by omega
      rw [List.getElem?_append, if_pos (by rw [List.length_cons]; omega),
          List.getElem?_cons_succ, List.getElem?_eq_getElem hj, Option.some_inj] at h1
      exact hts (h1 ▸ List.getElem_mem hj)

theorem findFrom_msgr_boundary (xs rest : List Char) (hxs : ']' ∉ xs) :
    findFrom (' ' :: '[' :: xs ++ ']' :: ' ' :: '[' :: rest) boundary 0
      = some (xs.length + 2) := by
  apply findFrom_eq_some (by decide) (Nat.zero_le _)
  · unfold OccursAt
    have hdrop : (' ' :: '[' :: xs ++ ']' :: ' ' :: '[' :: rest).drop (xs.length + 2)
        = ']' :: ' ' :: '[' :: rest := by
      rw [show ' ' :: '[' :: xs ++ ']' :: ' ' :: '[' :: rest
            = (' ' :: '[' :: xs) ++ (']' :: ' ' :: '[' :: rest) from rfl,
          show xs.length + 2 = (' ' :: '[' :: xs).length by
            rw [List.length_cons, List.length_cons],
          List.drop_left]
    rw [hdrop]
    exact ⟨rest, rfl⟩
  · intro k _ hk hc
    rw [occursAt_boundary] at hc
    obtain ⟨h1, -, -⟩ := hc
    rcases k with _ | k1
    · simp at h1
    rcases k1 with _ | j
    · simp at h1
    · have hj : j < xs.length := by omega
      rw [List.getElem?_append,
          if_pos (by rw [List.length_cons, List.length_cons]; omega),
          List.getElem?_cons_succ, List.getElem?_cons_succ,
          List.getElem?_eq_getElem hj, Option.some_inj] at h1
      exact hxs (h1 ▸ List.getElem_mem hj)

theorem findFrom_tail_none (lvl msg : List Char) (hlvl : ']' ∉ lvl)
    (hmsg : ∀ k, ¬ OccursAt msg boundary k) (hhead : msg[0]? ≠ some '[') :
    findFrom (' ' :: '[' :: lvl ++ ']' :: ' ' :: msg) boundary 0 = none := by
  apply findFrom_eq_none
  intro k _ hc
  by_cases hk4 : lvl.length + 4 ≤ k
  · have hshape : ' ' :: '[' :: lvl ++ ']' :: ' ' :: msg
        = ((' ' :: '[' :: lvl) ++ [']', ' ']) ++ msg := by
      simp
    have hlen : ((' ' :: '[' :: lvl) ++ [']', ' ']).length = lvl.length + 4 := by
      simp only [List.length_append, List.length_cons, List.length_nil]
    rw [hshape] at hc
    have hc2 : OccursAt ((((' ' :: '[' :: lvl) ++ [']', ' ']) ++ msg).drop (lvl.length + 4))
        boundary (k - (lvl.length + 4)) := by
      rw [occursAt_shift]
      rw [show lvl.length + 4 + (k - (lvl.length + 4)) = k by omega]
      exact hc
    rw [← hlen, List.drop_left] at hc2
    exact hmsg _ hc2
  · rw [occursAt_boundary] at hc
    obtain ⟨h1, -, h3⟩ := hc
    rcases k with _ | k1
    · simp at h1
    rcases k1 with _ | j
    · simp at h1
    rw [List.getElem?_append] at h1
    by_cases hj : j + 1 + 1 < (' ' :: '[' :: lvl).length
    · have hj' : j < lvl.length := by
        rw [List.length_cons, List.length_cons] at hj
        omega
      rw [if_pos hj, List.getElem?_cons_succ, List.getElem?_cons_succ,
          List.getElem?_eq_getElem hj', Option.some_inj] at h1
      exact hlvl (h1 ▸ List.getElem_mem hj')
    · rw [if_neg hj] at h1
      rw [List.length_cons, List.length_cons] at hj
      have hjL : j = lvl.length ∨ j = lvl.length + 1 := by omega
      rcases hjL with rfl | hj1
      · -- position of the level-closing ']': then k + 2 is the head of msg
        rw [List.getElem?_append_right
              (show (' ' :: '[' :: lvl).length ≤ lvl.length + 1 + 1 + 2 by
                rw [List.length_cons, List.length_cons]; omega)] at h3
        rw [show lvl.length + 1 + 1 + 2 - (' ' :: '[' :: lvl).length = 1 + 1 by
              rw [List.length_cons, List.length_cons]; omega] at h3
        rw [List.getElem?_cons_succ, List.getElem?_cons_succ] at h3
        exact hhead h3
      · rw [hj1] at h1
        rw [show lvl.length + 1 + 1 + 1 - (' ' :: '[' :: lvl).length = 1 by
              rw [List.length_cons, List.length_cons]; omega] at h1
        simp at h1

theorem levelStr_no_bracket (lvl : LogLevel) : ']' ∉ levelStr lvl := by
  cases lvl <;> decide

theorem levelStr_len (lvl : LogLevel) : 4 ≤ (levelStr lvl).length := by
  cases lvl <;> decide

/-- The key of a rendered line, with or without messenger, is exactly
`"[LEVEL] message"`, provided the timestamp and messenger contain no `']'`
and the message neither contains the `"] ["` boundary nor starts with `'['`. -/
theorem extractKey_render (ts msgr : List Char) (lvl : LogLevel) (msg : List Char)
    (hts : ']' ∉ ts) (hmr : ']' ∉ msgr)
    (hmsg : ∀ k, ¬ OccursAt msg boundary k) (hhead : msg[0]? ≠ some '[') :
    extractKey (renderLine ts msgr lvl msg) = '[' :: levelStr lvl ++ ']' :: ' ' :: msg := by
  by_cases hm : msgr.isEmpty
  · have hshape : renderLine ts msgr lvl msg
        = '[' :: ts ++ ']' :: ' ' :: '[' :: (levelStr lvl ++ ']' :: ' ' :: msg) := by
      simp [renderLine, hm]
    have hfirst : findFrom (renderLine ts msgr lvl msg) boundary 0 = some (ts.length + 1) := by
      rw [hshape]
      exact findFrom_first_boundary ts _ hts
    have hdrop2 : (renderLine ts msgr lvl msg).drop (ts.length + 1 + 1)
        = ' ' :: '[' :: levelStr lvl ++ ']' :: ' ' :: msg := by
      have hshape2 : renderLine ts msgr lvl msg
          = (('[' :: ts) ++ [']']) ++ (' ' :: '[' :: levelStr lvl ++ ']' :: ' ' :: msg) := by
        simp [renderLine, hm]
      rw [hshape2, show ts.length + 1 + 1 = (('[' :: ts) ++ [']']).length by simp,
          List.drop_left]
    have hsecond : findFrom (renderLine ts msgr lvl msg) boundary (ts.length + 1 + 1) = none := by
      rw [findFrom_shift (by decide), hdrop2,
          findFrom_tail_none (levelStr lvl) msg (levelStr_no_bracket lvl) hmsg hhead]
      rfl
    have hdrop3 : (renderLine ts msgr lvl msg).drop (ts.length + 1 + 2)
        = '[' :: levelStr lvl ++ ']' :: ' ' :: msg := by
      have hshape3 : renderLine ts msgr lvl msg
          = (('[' :: ts) ++ [']', ' ']) ++ ('[' :: levelStr lvl ++ ']' :: ' ' :: msg) := by
        simp [renderLine, hm]
      rw [hshape3, show ts.length + 1 + 2 = (('[' :: ts) ++ [']', ' ']).length by simp,
          List.drop_left]
    simp only [extractKey, hfirst, hsecond]
    exact hdrop3
  · have hshape : renderLine ts msgr lvl msg
        = '[' :: ts ++ ']' :: ' ' :: '[' ::
            (msgr ++ ']' :: ' ' :: '[' :: levelStr lvl ++ ']' :: ' ' :: msg) := by
      simp [renderLine, hm]
    have hfirst : findFrom (renderLine ts msgr lvl msg) boundary 0 = some (ts.length + 1) := by
      rw [hshape]
      exact findFrom_first_boundary ts _ hts
    have hdrop2 : (renderLine ts msgr lvl msg).drop (ts.length + 1 + 1)
        = ' ' :: '[' :: msgr ++ ']' :: ' ' :: '[' :: (levelStr lvl ++ ']' :: ' ' :: msg) := by
      have hshape2 : renderLine ts msgr lvl msg
          = (('[' :: ts) ++ [']'])
            ++ (' ' :: '[' :: msgr ++ ']' :: ' ' :: '[' :: (levelStr lvl ++ ']' :: ' ' :: msg)) := by
        simp [renderLine, hm]
      rw [hshape2, show ts.length + 1 + 1 = (('[' :: ts) ++ [']']).length by simp,
          List.drop_left]
    have hsecond : findFrom (renderLine ts msgr lvl msg) boundary (ts.length + 1 + 1)
        = some (ts.length + 1 + 1 + (msgr.length + 2)) := by
      rw [findFrom_shift (by decide), hdrop2, findFrom_msgr_boundary msgr _ hmr]
      rfl
    have hlen : (renderLine ts msgr lvl msg).length
        = ts.length + msgr.length + (levelStr lvl).length + msg.length + 9 := by
      rw [hshape]
      simp
      omega
    have hguard : ¬ ((renderLine ts msgr lvl msg).length
        ≤ ts.length + 1 + 1 + (msgr.length + 2) + 2) := by
      have h4 := levelStr_len lvl
      rw [hlen]
      omega
    have hdrop3 : (renderLine ts msgr lvl msg).drop (ts.length + 1 + 1 + (msgr.length + 2) + 2)
        = '[' :: levelStr lvl ++ ']' :: ' ' :: msg := by
      have hshape3 : renderLine ts msgr lvl msg
          = (('[' :: ts) ++ (']' :: ' ' :: '[' :: msgr) ++ [']', ' '])
            ++ ('[' :: levelStr lvl ++ ']' :: ' ' :: msg) := by
        simp [renderLine, hm]
      rw [hshape3,
          show ts.length + 1 + 1 + (msgr.length + 2) + 2
            = (('[' :: ts) ++ (']' :: ' ' :: '[' :: msgr) ++ [']', ' ']).length by simp; omega,
          List.drop_left]
    simp only [extractKey, hfirst, hsecond, if_neg hguard]
    exact hdrop3

theorem keyOf_inj (lvl lvl' : LogLevel) (msg msg' : List Char) :
    '[' :: levelStr lvl ++ ']' :: ' ' :: msg = '[' :: levelStr lvl' ++ ']' :: ' ' :: msg'
      ↔ lvl = lvl' ∧ msg = msg' := by
  constructor
  · intro h
    cases lvl <;> cases lvl' <;> simp_all [levelStr]
  · rintro ⟨rfl, rfl⟩
    rfl

unseal findFrom in
/-- C3 counterexample: as universally stated, the claim is false. First
conjunct: an INFO entry with message `"[ERROR] y"` and an ERROR entry with
message `"y"` (both rendered without source) get the SAME key, though level
and message differ. Second conjunct: the same INFO entry with message `"[x"`
gets DIFFERENT keys depending on whether a source field is present. -/
theorem extractKey_claim_false :
    (extractKey (renderLine "2024-01-01 00:00:00".data [] LogLevel.info "[ERROR] y".data)
        = extractKey (renderLine "2024-01-01 00:00:00".data [] LogLevel.error "y".data) ∧
      LogLevel.info ≠ LogLevel.error) ∧
    extractKey (renderLine "2024-01-01 00:00:00".data "app".data LogLevel.info "[x".data)
      ≠ extractKey (renderLine "2024-01-01 00:00:00".data [] LogLevel.info "[x".data) := by
  decide

/-- C3 amended: for rendered entries whose timestamp and source contain no
`']'` and whose message neither contains a `"] ["` boundary nor begins with
`'['`, two rendered lines have equal dedup keys iff their level and message
match — regardless of timestamp and source; and on any line without a
boundary, `ExtractKey` degrades gracefully, returning the whole line. -/
theorem extractKey_dedup (ts ts' msgr msgr' : List Char) (lvl lvl' : LogLevel)
    (msg msg' : List Char)
    (hts : ']' ∉ ts) (hts' : ']' ∉ ts') (hmr : ']' ∉ msgr) (hmr' : ']' ∉ msgr')
    (hm : findFrom msg boundary 0 = none) (hm' : findFrom msg' boundary 0 = none)
    (hh : msg[0]? ≠ some '[') (hh' : msg'[0]? ≠ some '[') :
    (extractKey (renderLine ts msgr lvl msg) = extractKey (renderLine ts' msgr' lvl' msg')
      ↔ (lvl = lvl' ∧ msg = msg')) ∧
    (∀ l : List Char, findFrom l boundary 0 = none → extractKey l = l) := by
  constructor
  · rw [extractKey_render ts msgr lvl msg hts hmr
        (fun k => findFrom_none (by decide) hm k (Nat.zero_le k)) hh,
      extractKey_render ts' msgr' lvl' msg' hts' hmr'
        (fun k => findFrom_none (by decide) hm' k (Nat.zero_le k)) hh']
    exact keyOf_inj lvl lvl' msg msg'
  · intro l hl
    simp only [extractKey, hl]

unseal findFrom in
/-- Witness for the amended C3: same level and message, different timestamps,
source present on one side only — equal keys. -/
theorem extractKey_dedup_witness :
    extractKey (renderLine "2024-01-01 00:00:00".data "app".data LogLevel.info "hello".data)
        = extractKey (renderLine "2024-01-02 11:22:33".data [] LogLevel.info "hello".data)
      ↔ (LogLevel.info = LogLevel.info ∧ "hello".data = "hello".data) :=
  (extractKey_dedup "2024-01-01 00:00:00".data "2024-01-02 11:22:33".data "app".data []
    LogLevel.info LogLevel.info "hello".data "hello".data
    (by decide) (by decide) (by decide) (by decide)
    (by decide) (by decide) (by decide) (by decide)).1

/-! ### C5: idempotence of the file-level compaction -/

theorem splitNl_no_newline : ∀ (c : List Char), ∀ l ∈ splitNl c, '\n' ∉ l := by
  intro c
  induction c with
  | nil =>
    intro l hl
    cases hl
  | cons c cs ih =>
    intro l hl
    rw [splitNl] at hl
    by_cases hc : c = '\n'
    · rw [if_pos hc] at hl
      rcases List.mem_cons.mp hl with rfl | hl
      · exact List.not_mem_nil _
      · exact ih l hl
    · rw [if_neg hc] at hl
      rcases hsp : splitNl cs with _ | ⟨l0, ls⟩
      · rw [hsp] at hl
        rcases List.mem_cons.mp hl with rfl | hl
        · intro hmem
          rcases List.mem_singleton.mp hmem with rfl
          exact hc rfl
        · cases hl
      · rw [hsp] at hl
        rcases List.mem_cons.mp hl with rfl | hl
        · intro hmem
          rcases List.mem_cons.mp hmem with rfl | hmem
          · exact hc rfl
          · exact ih l0 (hsp ▸ List.mem_cons_self _ _) hmem
        · exact ih l (hsp ▸ List.mem_cons_of_mem _ hl)

theorem splitLoop_sublist (raw : List Char) :
    ∀ i start acc, (∀ x ∈ acc, x.Sublist raw) →
      ∀ seg ∈ splitLoop raw i start acc, seg.Sublist raw := by
  intro i start acc
  induction i, start, acc using splitLoop.induct raw with
  | case1 i start acc h1 h2 ih =>
    intro hacc seg hseg
    rw [splitLoop, dif_pos h1, if_pos h2] at hseg
    refine ih ?_ seg hseg
    intro x hx
    split at hx
    · rcases List.mem_append.mp hx with hx | hx
      · exact hacc x hx
      · rcases List.mem_singleton.mp hx with rfl
        exact ((raw.drop start).take_sublist _).trans (raw.drop_sublist start)
    · exact hacc x hx
  | case2 i start acc h1 h2 ih =>
    intro hacc seg hseg
    rw [splitLoop, dif_pos h1, if_neg h2] at hseg
    exact ih hacc seg hseg
  | case3 i start acc h1 h2 =>
    intro hacc seg hseg
    rw [splitLoop, dif_neg h1, if_pos h2] at hseg
    rcases List.mem_append.mp hseg with hx | hx
    · exact hacc seg hx
    · rcases List.mem_singleton.mp hx with rfl
      exact raw.drop_sublist start
  | case4 i start acc h1 h2 =>
    intro hacc seg hseg
    rw [splitLoop, dif_neg h1, if_neg h2] at hseg
    exact hacc seg hseg

theorem logicalLines_no_newline (c : List Char) : ∀ l ∈ logicalLines c, '\n' ∉ l := by
  intro l hl
  rw [logicalLines, List.mem_flatMap] at hl
  obtain ⟨phys, hphys, hl⟩ := hl
  have hphys2 : phys ∈ splitNl c := List.mem_of_mem_filter hphys
  have hsub : l.Sublist phys :=
    splitLoop_sublist phys 1 0 [] (by intro x hx; cases hx) l
      (List.mem_of_mem_filter hl)
  intro hmem
  exact splitNl_no_newline c phys hphys2 (hsub.subset hmem)

theorem stripRepeatSuffix_sublist (l : List Char) : (stripRepeatSuffix l).Sublist l := by
  rw [stripRepeatSuffix]
  split
  · exact l.take_sublist _
  · exact List.Sublist.refl l

theorem serializeRecord_no_newline {base : List Char} {count : Nat} (h : '\n' ∉ base) :
    '\n' ∉ serializeRecord base count := by
  rw [serializeRecord]
  split
  · intro hmem
    rcases List.mem_append.mp hmem with hx | hx
    · rcases List.mem_append.mp hx with hy | hy
      · rcases List.mem_append.mp hy with hz | hz
        · exact h hz
        · revert hz
          decide
      · exact (isDigit_ne (natDigits_isDigit count _ hy)).2.2.2.2.2 rfl
    · revert hx
      decide
  · exact h

theorem splitNl_render : ∀ (ws : List (List Char)), (∀ w ∈ ws, '\n' ∉ w) →
    splitNl ((ws.map (fun w => w ++ ['\n'])).flatten) = ws := by
  have hone : ∀ (w t : List Char), '\n' ∉ w → splitNl ((w ++ ['\n']) ++ t) = w :: splitNl t := by
    intro w
    induction w with
    | nil =>
      intro t _
      rw [show (([] : List Char) ++ ['\n']) ++ t = '\n' :: t by simp, splitNl, if_pos rfl]
    | cons ch w ih =>
      intro t hnl
      have hch : ch ≠ '\n' := fun hc => hnl (hc ▸ List.mem_cons_self _ _)
      rw [show ((ch :: w) ++ ['\n']) ++ t = ch :: ((w ++ ['\n']) ++ t) by simp, splitNl,
          if_neg hch, ih t (fun hm => hnl (List.mem_cons_of_mem _ hm))]
  intro ws
  induction ws with
  | nil =>
    intro _
    rfl
  | cons w ws ih =>
    intro hnl
    rw [List.map_cons, List.flatten_cons,
        hone w _ (hnl w (List.mem_cons_self _ _)),
        ih (fun x hx => hnl x (List.mem_cons_of_mem _ hx))]

theorem flatMap_eq_self {f : List Char → List (List Char)} :
    ∀ ws : List (List Char), (∀ x ∈ ws, f x = [x]) → ws.flatMap f = ws := by
  intro ws
  induction ws with
  | nil => intro _; rfl
  | cons w ws ih =>
    intro h
    rw [List.flatMap_cons, h w (List.mem_cons_self _ _),
        ih (fun x hx => h x (List.mem_cons_of_mem _ hx))]
    rfl

/-- Re-reading a rendered record list: provided every serialized line is
non-empty, newline-free and not split by the splitter, the logical lines of
the rendered output are exactly the serialized lines. -/
theorem logicalLines_render (recs : List (List Char × Record))
    (hne : ∀ kr ∈ recs, serializeRecord kr.2.baseLine kr.2.count ≠ [])
    (hnl : ∀ kr ∈ recs, '\n' ∉ serializeRecord kr.2.baseLine kr.2.count)
    (hsp : ∀ kr ∈ recs, splitConcatenatedLines (serializeRecord kr.2.baseLine kr.2.count)
      = [serializeRecord kr.2.baseLine kr.2.count]) :
    logicalLines (renderRecords recs)
      = recs.map (fun kr => serializeRecord kr.2.baseLine kr.2.count) := by
  rw [logicalLines, renderRecords]
  rw [show (recs.map (fun kr => serializeRecord kr.2.baseLine kr.2.count ++ ['\n']))
        = ((recs.map (fun kr => serializeRecord kr.2.baseLine kr.2.count)).map
            (fun w => w ++ ['\n'])) by rw [List.map_map]; rfl]
  rw [splitNl_render _ (by
    intro w hw
    obtain ⟨kr, hkr, rfl⟩ := List.mem_map.mp hw
    exact hnl kr hkr)]
  rw [List.filter_eq_self.mpr (by
    intro w hw
    obtain ⟨kr, hkr, rfl⟩ := List.mem_map.mp hw
    simpa using hne kr hkr)]
  apply flatMap_eq_self
  intro w hw
  obtain ⟨kr, hkr, rfl⟩ := List.mem_map.mp hw
  rw [hsp kr hkr]
  rw [List.filter_eq_self.mpr (by
    intro x hx
    rcases List.mem_singleton.mp hx with rfl
    simpa using hne kr hkr)]

/-- The record list produced by re-processing a one-record-per-line file:
same keys, base lines and counts, with `lastIndex` re-numbered `i, i+1, …`. -/
def reindex : List (List Char × Record) → Nat → List (List Char × Record)
  | [], _ => []
  | kr :: rest, i => (kr.1, Record.mk kr.2.baseLine kr.2.count i) :: reindex rest (i + 1)

theorem reindex_length : ∀ (recs : List (List Char × Record)) (i : Nat),
    (reindex recs i).length = recs.length := by
  intro recs
  induction recs with
  | nil => intro i; rfl
  | cons kr rest ih =>
    intro i
    rw [reindex, List.length_cons, List.length_cons, ih]

theorem reindex_lastIndex_ge : ∀ (recs : List (List Char × Record)) (i : Nat),
    ∀ kr' ∈ reindex recs i, i ≤ kr'.2.lastIndex := by
  intro recs
  induction recs with
  | nil =>
    intro i kr' h
    cases h
  | cons kr rest ih =>
    intro i kr' h
    rw [reindex] at h
    rcases List.mem_cons.mp h with rfl | h
    · exact le_refl _
    · have := ih (i + 1) kr' h
      omega

theorem reindex_pairwise : ∀ (recs : List (List Char × Record)) (i : Nat),
    (reindex recs i).Pairwise (fun a b => a.2.lastIndex < b.2.lastIndex) := by
  intro recs
  induction recs with
  | nil =>
    intro i
    exact List.Pairwise.nil
  | cons kr rest ih =>
    intro i
    rw [reindex]
    refine List.Pairwise.cons ?_ (ih (i + 1))
    intro b hb
    have := reindex_lastIndex_ge rest (i + 1) b hb
    show i < b.2.lastIndex
    omega

theorem reindex_render : ∀ (recs : List (List Char × Record)) (i : Nat),
    renderRecords (reindex recs i) = renderRecords recs := by
  intro recs
  induction recs with
  | nil => intro i; rfl
  | cons kr rest ih =>
    intro i
    rw [reindex, renderRecords, renderRecords, List.map_cons, List.map_cons,
        List.flatten_cons, List.flatten_cons]
    have hr := ih (i + 1)
    rw [renderRecords, renderRecords] at hr
    rw [hr]

theorem processLinesAux_stable :
    ∀ (recs0 : List (List Char × Record)) (i : Nat) (acc : List (List Char × Record)),
      (∀ kr ∈ recs0,
        lineMult (serializeRecord kr.2.baseLine kr.2.count) = kr.2.count ∧
        stripRepeatSuffix (serializeRecord kr.2.baseLine kr.2.count) = kr.2.baseLine ∧
        extractKey kr.2.baseLine = kr.1) →
      (recs0.map Prod.fst).Nodup →
      (∀ kr ∈ recs0, kr.1 ∉ acc.map Prod.fst) →
      processLinesAux
        (recs0.map (fun kr => serializeRecord kr.2.baseLine kr.2.count)) i acc
        = acc ++ reindex recs0 i := by
  intro recs0
  induction recs0 with
  | nil =>
    intro i acc _ _ _
    rw [List.map_nil, processLinesAux, reindex, List.append_nil]
  | cons kr rest ih =>
    intro i acc hstable hnd hdisj
    obtain ⟨hmult, hstrip, hkey⟩ := hstable kr (List.mem_cons_self _ _)
    rw [List.map_cons, processLinesAux]
    have hstep : stepRecs acc (serializeRecord kr.2.baseLine kr.2.count) i
        = acc ++ [(kr.1, Record.mk kr.2.baseLine kr.2.count i)] := by
      rw [stepRecs]
      simp only [hstrip, hkey, hmult]
      rw [if_neg (hdisj kr (List.mem_cons_self _ _))]
    rw [hstep]
    rw [ih (i + 1) (acc ++ [(kr.1, Record.mk kr.2.baseLine kr.2.count i)])
        (fun kr' h => hstable kr' (List.mem_cons_of_mem _ h))
        ((List.nodup_cons.mp hnd).2) ?_]
    · rw [reindex, List.append_assoc, List.singleton_append]
    · intro kr' h hc
      rw [List.map_append, List.mem_append] at hc
      rcases hc with hc | hc
      · exact hdisj kr' (List.mem_cons_of_mem _ h) hc
      · rcases List.mem_singleton.mp hc with hc
        have hk1 : kr.1 ∉ rest.map Prod.fst := (List.nodup_cons.mp hnd).1
        exact hk1 (hc ▸ List.mem_map.mpr ⟨kr', h, rfl⟩)

theorem sortRecords_of_strict {recs : List (List Char × Record)}
    (h : recs.Pairwise (fun a b => a.2.lastIndex < b.2.lastIndex)) :
    sortRecords recs = recs := by
  haveI : IsAntisymm (List Char × Record) (fun a b => a.2.lastIndex < b.2.lastIndex) :=
    ⟨fun a b h1 h2 => absurd h2 (by omega)⟩
  have hndls : (recs.map (fun kr => kr.2.lastIndex)).Nodup :=
    List.pairwise_map.mpr (h.imp (fun hab => by omega))
  have hnd2 : ((sortRecords recs).map (fun kr => kr.2.lastIndex)).Nodup :=
    ((sortRecords_perm recs).map _).nodup_iff.mpr hndls
  have hne : (sortRecords recs).Pairwise (fun a b => a.2.lastIndex ≠ b.2.lastIndex) :=
    List.pairwise_map.mp hnd2
  have hlt : (sortRecords recs).Pairwise (fun a b => a.2.lastIndex < b.2.lastIndex) :=
    ((sortRecords_pairwise recs).and hne).imp (fun hab => by omega)
  exact List.eq_of_perm_of_sorted (sortRecords_perm recs) hlt h

theorem compact_key_eq (lines : List (List Char)) (m : Nat) :
    ∀ kr ∈ compact lines m, extractKey kr.2.baseLine = kr.1 := by
  intro kr hkr
  obtain ⟨-, l, -, hk, hb, -⟩ := (processLines_ok lines).2.2 kr (mem_compact hkr)
  rw [hb]
  exact hk

theorem compact_base_no_newline (c : List Char) (m : Nat) :
    ∀ kr ∈ compact (logicalLines c) m, '\n' ∉ kr.2.baseLine := by
  intro kr hkr
  obtain ⟨-, l, hg, -, hb, -⟩ :=
    (processLines_ok (logicalLines c)).2.2 kr (mem_compact hkr)
  rw [hb]
  intro hmem
  exact logicalLines_no_newline c l (mem_of_getElem?' hg)
    ((stripRepeatSuffix_sublist l).subset hmem)

unseal List.merge List.mergeSort findFrom splitLoop natDigits in
/-- C5 counterexample: on the file `" (repeated 1 times)\nX\n"` one compaction
pass yields `"\nX\n"` (the pathological first line parses as an empty base
line repeated once and is written back as an empty line), and a second pass
then drops that now-blank line, yielding `"X\n"` — not byte-identical. -/
theorem runCompact_not_idempotent :
    runCompact (runCompact " (repeated 1 times)\nX\n".data 1000) 1000
      ≠ runCompact " (repeated 1 times)\nX\n".data 1000 := by
  decide

/-- C5 amended: compaction is idempotent on every file for which the single
pass's output lines are read back as written: every emitted record serializes
to a non-empty line that the entry splitter does not split and that parses
back to exactly that record's `(count, baseLine)`. (For `count > 1` the
parse-back condition always holds, by `serialize_roundTrip`; the counterexample
shows some condition of this kind is necessary.) -/
theorem runCompact_idempotent (c : List Char) (m : Nat)
    (H : ∀ kr ∈ compact (logicalLines c) m,
      serializeRecord kr.2.baseLine kr.2.count ≠ [] ∧
      splitConcatenatedLines (serializeRecord kr.2.baseLine kr.2.count)
        = [serializeRecord kr.2.baseLine kr.2.count] ∧
      lineMult (serializeRecord kr.2.baseLine kr.2.count) = kr.2.count ∧
      stripRepeatSuffix (serializeRecord kr.2.baseLine kr.2.count) = kr.2.baseLine) :
    runCompact (runCompact c m) m = runCompact c m := by
  by_cases hnil : logicalLines c = []
  · have h1 : runCompact c m = c := by
      simp [runCompact, compressAndTrim, hnil]
    rw [h1]
    exact h1
  · have hniF : ¬ (logicalLines c).isEmpty = true := by
      simpa [List.isEmpty_iff] using hnil
    have hrun1 : runCompact c m = renderRecords (compact (logicalLines c) m) := by
      simp [runCompact, compressAndTrim, hniF]
    rw [hrun1]
    by_cases hrecs0 : compact (logicalLines c) m = []
    · rw [hrecs0]
      show runCompact [] m = renderRecords []
      rfl
    · have hlines2 : logicalLines (renderRecords (compact (logicalLines c) m))
          = (compact (logicalLines c) m).map
              (fun kr => serializeRecord kr.2.baseLine kr.2.count) := by
        refine logicalLines_render _ (fun kr h => (H kr h).1) ?_ (fun kr h => (H kr h).2.1)
        intro kr h
        exact serializeRecord_no_newline (compact_base_no_newline c m kr h)
      have hP : processLines ((compact (logicalLines c) m).map
            (fun kr => serializeRecord kr.2.baseLine kr.2.count))
          = reindex (compact (logicalLines c) m) 0 := by
        rw [processLines]
        refine processLinesAux_stable _ 0 []
          (fun kr h => ⟨(H kr h).2.2.1, (H kr h).2.2.2, compact_key_eq _ m kr h⟩)
          (compact_keys_nodup _ m) (fun kr _ hc => ?_)
        cases hc
      have hlenle : (compact (logicalLines c) m).length ≤ m := by
        have hl := (compact_length_order (logicalLines c) m).1
        omega
      have hcompact2 : compact ((compact (logicalLines c) m).map
            (fun kr => serializeRecord kr.2.baseLine kr.2.count)) m
          = reindex (compact (logicalLines c) m) 0 := by
        rw [compact, hP, sortRecords_of_strict (reindex_pairwise _ 0), trimRecords,
            if_neg (by rw [reindex_length]; omega)]
      have hmapne : (compact (logicalLines c) m).map
            (fun kr => serializeRecord kr.2.baseLine kr.2.count) ≠ [] := by
        simpa using hrecs0
      have hniF2 : ¬ (logicalLines (renderRecords (compact (logicalLines c) m))).isEmpty
          = true := by
        rw [hlines2]
        simpa [List.isEmpty_iff] using hmapne
      simp only [runCompact, compressAndTrim, if_neg hniF2, Option.getD_some]
      rw [hlines2, hcompact2, reindex_render]

unseal List.merge List.mergeSort findFrom splitLoop natDigits in
/-- Witness for the amended C5 on the file `"A\nA\n"`. -/
theorem runCompact_idempotent_witness :
    runCompact (runCompact ('A' :: '\n' :: 'A' :: '\n' :: []) 1000) 1000
      = runCompact ('A' :: '\n' :: 'A' :: '\n' :: []) 1000 :=
  runCompact_idempotent ('A' :: '\n' :: 'A' :: '\n' :: []) 1000 (by decide)

end C6Logger
